import Mathlib

/-! Verification of the gi-voxels voxelization / cone-tracing core.

Shallow embedding of `src/gi/voxelconetracer.js` (constructor, the
orthographic slice frustums built by `voxelize`, and the CPU-side merge of
the three axis capture textures into the 3D volume buffer) and of the
`coneTrace` march loop of `src/materials/conetracershader.js`.  GPU float
arithmetic is modelled with exact rationals, the mip formula with reals;
the readback `Uint8Array` buffer is modelled as a function from flat byte
index to byte value. -/

namespace GIVoxels

/-! Volume merge (`voxelize`, src/gi/voxelconetracer.js lines 253-325).
The capture textures are modelled as functions `cap : slice → byteOffset →
byte` giving the bytes delivered by `gl.readPixels` for each slice. -/

/-- A single `data[p] = v` store on the readback buffer. -/
def upd (d : ℕ → ℕ) (p v : ℕ) : ℕ → ℕ := fun q => if q = p then v else d q

/-- `for (let m = 0; m < M; m++) body(m)` acting on the buffer; the body for
`m = 0` is applied first. -/
def iterUpTo (f : ℕ → (ℕ → ℕ) → (ℕ → ℕ)) : ℕ → (ℕ → ℕ) → (ℕ → ℕ)
  | 0, d => d
  | m + 1, d => f m (iterUpTo f m d)

/-- X-axis remap (line 269): the flat voxel index
`0 + (vSize - 1) + k * vSize * vSize - i - (vSize*vSize*vSize*rowCount - vSize*rowCount)`
for slice `i`, pixel `k`, where `rowCount = k / vSize`. -/
def idxX (N i k : ℕ) : ℕ :=
  0 + (N - 1) + k * N * N - i - (N * N * N * (k / N) - N * (k / N))

/-- Y-axis remap (line 291): `i * vSize + vSize*vSize*rowCount + vSize - it - 1`
where `rowCount = k / vSize` and `it = k % vSize`. -/
def idxY (N i k : ℕ) : ℕ := i * N + N * N * (k / N) + N - k % N - 1

/-- Z-axis remap (line 319): the byte written is `vSize*vSize*i*4 + j`; at
pixel granularity (`j = 4*k + ch`) the flat voxel index is `vSize*vSize*i + k`. -/
def idxZ (N i k : ℕ) : ℕ := N * N * i + k

/-- One pixel of the X readback loop (lines 264-274): all four channel bytes
of slice `i`, pixel `k` are stored unconditionally at voxel `idxX N i k`. -/
def pixX (N : ℕ) (cap : ℕ → ℕ → ℕ) (i k : ℕ) (d : ℕ → ℕ) : ℕ → ℕ :=
  upd (upd (upd (upd d
    (idxX N i k * 4 + 0) (cap i (4 * k + 0)))
    (idxX N i k * 4 + 1) (cap i (4 * k + 1)))
    (idxX N i k * 4 + 2) (cap i (4 * k + 2)))
    (idxX N i k * 4 + 3) (cap i (4 * k + 3))

/-- The X pass over one slice (`for k` loop, lines 264-274). -/
def sliceX (N : ℕ) (cap : ℕ → ℕ → ℕ) (i : ℕ) : (ℕ → ℕ) → (ℕ → ℕ) :=
  iterUpTo (pixX N cap i) (N * N)

/-- The X pass over all slices (lines 256-275). -/
def passX (N : ℕ) (cap : ℕ → ℕ → ℕ) : (ℕ → ℕ) → (ℕ → ℕ) :=
  iterUpTo (sliceX N cap) N

/-- One pixel of the Y merge loop (lines 287-307): each channel byte is
written to voxel `idxY N i k` only when the capture byte is non-zero. -/
def pixY (N : ℕ) (cap : ℕ → ℕ → ℕ) (i k : ℕ) (d : ℕ → ℕ) : ℕ → ℕ :=
  let d0 := if 0 < cap i (4 * k + 0) then upd d (idxY N i k * 4 + 0) (cap i (4 * k + 0)) else d
  let d1 := if 0 < cap i (4 * k + 1) then upd d0 (idxY N i k * 4 + 1) (cap i (4 * k + 1)) else d0
  let d2 := if 0 < cap i (4 * k + 2) then upd d1 (idxY N i k * 4 + 2) (cap i (4 * k + 2)) else d1
  if 0 < cap i (4 * k + 3) then upd d2 (idxY N i k * 4 + 3) (cap i (4 * k + 3)) else d2

/-- The Y pass over one slice. -/
def sliceY (N : ℕ) (cap : ℕ → ℕ → ℕ) (i : ℕ) : (ℕ → ℕ) → (ℕ → ℕ) :=
  iterUpTo (pixY N cap i) (N * N)

/-- The Y pass over all slices (lines 278-308). -/
def passY (N : ℕ) (cap : ℕ → ℕ → ℕ) : (ℕ → ℕ) → (ℕ → ℕ) :=
  iterUpTo (sliceY N cap) N

/-- One byte of the Z merge loop (lines 316-320): written only when the
capture byte is non-zero. -/
def byteZ (N : ℕ) (cap : ℕ → ℕ → ℕ) (i j : ℕ) (d : ℕ → ℕ) : ℕ → ℕ :=
  if 0 < cap i j then upd d (N * N * i * 4 + j) (cap i j) else d

/-- The Z pass over one slice (`for j` loop over all `vSize*vSize*4` bytes). -/
def sliceZ (N : ℕ) (cap : ℕ → ℕ → ℕ) (i : ℕ) : (ℕ → ℕ) → (ℕ → ℕ) :=
  iterUpTo (byteZ N cap i) (N * N * 4)

/-- The Z pass over all slices (lines 311-321). -/
def passZ (N : ℕ) (cap : ℕ → ℕ → ℕ) : (ℕ → ℕ) → (ℕ → ℕ) :=
  iterUpTo (sliceZ N cap) N

/-- The three merge passes, X then Y then Z, from an explicit starting
buffer. -/
def mergePasses (N : ℕ) (capX capY capZ : ℕ → ℕ → ℕ) (d : ℕ → ℕ) : ℕ → ℕ :=
  passZ N capZ (passY N capY (passX N capX d))

/-- The merge as the source performs it: `data` is a freshly allocated,
zero-initialized `Uint8Array` (line 254). -/
def mergeData (N : ℕ) (capX capY capZ : ℕ → ℕ → ℕ) : ℕ → ℕ :=
  mergePasses N capX capY capZ (fun _ => 0)

/-! Constructor and slice frustums (src/gi/voxelconetracer.js).
The constructor (lines 14-16) receives `sceneScale` and `cubeSize` but
stores only `this.voxelTextureSize = resolution`; voxelize (line 152)
declares its own `const sceneScale = 3000`. -/

/-- The per-slice orthographic camera parameters, in constructor-argument
order `(left, right, bottom, top, near, far)`. -/
structure OrthoFrustum where
  left : ℚ
  right : ℚ
  bottom : ℚ
  top : ℚ
  near : ℚ
  far : ℚ
deriving DecidableEq

/-- The state `VoxelConeTracer.constructor` keeps that voxelization reads;
only the resolution is stored (`this.voxelTextureSize = resolution`). -/
structure VoxelConeTracer where
  voxelTextureSize : ℕ
deriving DecidableEq

/-- `new VoxelConeTracer(sceneScale, cubeSize, resolution, ...)`: the
`sceneScale` and `cubeSize` arguments are not saved on the instance. -/
def VoxelConeTracer.construct (sceneScale cubeSize : ℚ) (resolution : ℕ) :
    VoxelConeTracer :=
  ⟨resolution⟩

/-- The local constant `const sceneScale = 3000` of `voxelize` (line 152). -/
def voxelizeSceneScale : ℚ := 3000

/-- The orthographic frustum built for slice `i` of a voxelization pass
(lines 156-162; the X, Y and Z loops use identical bounds):
`OrthographicCamera(-sceneScale, sceneScale, -sceneScale, sceneScale,
sceneScale - (i / vSize) * sceneScale * 2, sceneScale - ((i+1) / vSize) * sceneScale * 2)`. -/
def voxelizeFrustum (t : VoxelConeTracer) (i : ℕ) : OrthoFrustum where
  left := -voxelizeSceneScale
  right := voxelizeSceneScale
  bottom := -voxelizeSceneScale
  top := voxelizeSceneScale
  near := voxelizeSceneScale - ((i : ℚ) / (t.voxelTextureSize : ℚ)) * voxelizeSceneScale * 2
  far := voxelizeSceneScale - (((i : ℚ) + 1) / (t.voxelTextureSize : ℚ)) * voxelizeSceneScale * 2

/-! Cone march loop (`coneTrace`, src/materials/conetracershader.js lines
148-185).  Shader floats are modelled as exact rationals.  For a fixed
start position and direction the value fetched by
`textureLod(voxelTexture, scaleAndBias(worldPosition / sceneScale), mip)`
is a function of the marched distance alone, so the volume fetch along the
cone is abstracted as `vol : dist → RGBA`. -/

/-- An RGBA texel as fetched from the volume. -/
structure RGBA where
  r : ℚ
  g : ℚ
  b : ℚ
  a : ℚ
deriving DecidableEq

/-- The mutable locals of the `while` loop in `coneTrace`. -/
structure CTState where
  cr : ℚ
  cg : ℚ
  cb : ℚ
  alpha : ℚ
  occl : ℚ
  dist : ℚ
deriving DecidableEq

/-- One iteration of the `while` body (lines 161-177), minus the final
`alpha > 0.95` break test: diameter clamp, volume fetch, the two color
additions (`color = color + a * voxelColor.rgb` on line 171 and
`color = color + voxelColor.rgb` on line 174), the alpha and occlusion
accumulation, and the distance advance. -/
def coneStep (vol : ℚ → RGBA) (voxelWorldSize tanHalfAngle voxelConeStepSize : ℚ)
    (st : CTState) : CTState :=
  let diameter := max voxelWorldSize (2 * tanHalfAngle * st.dist)
  let voxelColor := vol st.dist
  let a := 1 - st.alpha
  { cr := st.cr + a * voxelColor.r + voxelColor.r
    cg := st.cg + a * voxelColor.g + voxelColor.g
    cb := st.cb + a * voxelColor.b + voxelColor.b
    alpha := st.alpha + a * voxelColor.a
    occl := st.occl + a * voxelColor.a
    dist := st.dist + diameter * voxelConeStepSize }

/-- The `while (dist < maxDistance)` loop (lines 161-182) with an explicit
fuel bound (the loop itself has none); returns the final state together
with the number of iterations executed.  An iteration that raises `alpha`
above `0.95` is the last (`break`, lines 179-181). -/
def coneLoop (vol : ℚ → RGBA) (voxelWorldSize tanHalfAngle voxelConeStepSize : ℚ) :
    ℕ → CTState → CTState × ℕ
  | 0, st => (st, 0)
  | fuel + 1, st =>
    if st.dist < 50 * voxelWorldSize then
      let st' := coneStep vol voxelWorldSize tanHalfAngle voxelConeStepSize st
      if st'.alpha > 0.95 then (st', 1)
      else
        let r := coneLoop vol voxelWorldSize tanHalfAngle voxelConeStepSize fuel st'
        (r.1, r.2 + 1)
    else (st, 0)

/-- The initial state of `coneTrace` (lines 149-156): zero color, alpha and
occlusion, and `dist = voxelWorldSize` (one voxel of self-occlusion offset). -/
def coneTraceInit (voxelWorldSize : ℚ) : CTState :=
  ⟨0, 0, 0, 0, 0, voxelWorldSize⟩

/-- The whole `coneTrace` march: loop from the initial state.  The returned
state carries the final `vec4(color, alpha)` and the `occlusion` out-param. -/
def coneTrace (vol : ℚ → RGBA) (voxelWorldSize tanHalfAngle voxelConeStepSize : ℚ)
    (fuel : ℕ) : CTState × ℕ :=
  coneLoop vol voxelWorldSize tanHalfAngle voxelConeStepSize fuel
    (coneTraceInit voxelWorldSize)

/-- Modelled from the spec: one front-to-back compositing step as §4.3
states it (`color += (1-accumAlpha) * sampleColor;
accumAlpha += (1-accumAlpha) * sampleAlpha`), with no further color
addition; used to compare the shader's actual step against the spec. -/
def coneStepSpec (vol : ℚ → RGBA) (voxelWorldSize tanHalfAngle voxelConeStepSize : ℚ)
    (st : CTState) : CTState :=
  let diameter := max voxelWorldSize (2 * tanHalfAngle * st.dist)
  let voxelColor := vol st.dist
  let a := 1 - st.alpha
  { cr := st.cr + a * voxelColor.r
    cg := st.cg + a * voxelColor.g
    cb := st.cb + a * voxelColor.b
    alpha := st.alpha + a * voxelColor.a
    occl := st.occl + a * voxelColor.a
    dist := st.dist + diameter * voxelConeStepSize }

/-- The mip level computed at each step (lines 162-164):
`diameter = max(voxelWorldSize, 2 * tanHalfAngle * dist)` and
`mip = log2(diameter / voxelWorldSize)`. -/
noncomputable def coneMip (voxelWorldSize tanHalfAngle dist : ℝ) : ℝ :=
  Real.logb 2 (max voxelWorldSize (2 * tanHalfAngle * dist) / voxelWorldSize)

/-! Buffer-update helper lemmas. -/

lemma upd_self (d : ℕ → ℕ) (p v : ℕ) : upd d p v p = v := by
  simp [upd]

lemma upd_ne (d : ℕ → ℕ) (p v q : ℕ) (h : q ≠ p) : upd d p v q = d q := by
  simp [upd, h]

lemma condupd_ne (d : ℕ → ℕ) (p v q : ℕ) (h : q ≠ p) (c : Prop) [Decidable c] :
    (if c then upd d p v else d) q = d q := by
  split
  · exact upd_ne d p v q h
  · rfl

lemma iterUpTo_miss {f : ℕ → (ℕ → ℕ) → (ℕ → ℕ)} {q : ℕ} :
    ∀ {M : ℕ}, (∀ m < M, ∀ d, f m d q = d q) → ∀ d, iterUpTo f M d q = d q := by
  intro M
  induction M with
  | zero => intro _ d; rfl
  | succ M ih =>
      intro h d
      show f M (iterUpTo f M d) q = d q
      rw [h M (Nat.lt_succ_self M), ih (fun m hm => h m (Nat.lt_succ_of_lt hm))]

/-- If exactly one index `i₀` of the loop can touch position `q`, and its body
acts on `q` as `g` applied to the old value, the whole loop acts as `g`. -/
lemma iterUpTo_single {f : ℕ → (ℕ → ℕ) → (ℕ → ℕ)} {q i₀ : ℕ} (g : ℕ → ℕ) :
    ∀ {M : ℕ}, (∀ m < M, m ≠ i₀ → ∀ d, f m d q = d q) →
      (∀ d, f i₀ d q = g (d q)) → i₀ < M → ∀ d, iterUpTo f M d q = g (d q) := by
  intro M
  induction M with
  | zero => intro _ _ h; exact absurd h (Nat.not_lt_zero _)
  | succ M ih =>
      intro hmiss hhit hlt d
      show f M (iterUpTo f M d) q = g (d q)
      rcases Nat.lt_succ_iff_lt_or_eq.mp hlt with h | h
      · rw [hmiss M (Nat.lt_succ_self M) (by omega), ih
          (fun m hm hne => hmiss m (Nat.lt_succ_of_lt hm) hne) hhit h]
      · subst h
        rw [hhit, iterUpTo_miss (fun m hm => hmiss m (Nat.lt_succ_of_lt hm) (by omega))]

/-- The loop's output at `q` depends on the input buffer only through its
value at `q`, provided each body does. -/
lemma iterUpTo_local {f : ℕ → (ℕ → ℕ) → (ℕ → ℕ)} {q : ℕ}
    (h : ∀ m, ∀ d₁ d₂ : ℕ → ℕ, d₁ q = d₂ q → f m d₁ q = f m d₂ q) :
    ∀ (M : ℕ) {d₁ d₂ : ℕ → ℕ}, d₁ q = d₂ q → iterUpTo f M d₁ q = iterUpTo f M d₂ q := by
  intro M
  induction M with
  | zero => intro d₁ d₂ hd; exact hd
  | succ M ih => intro d₁ d₂ hd; exact h M _ _ (ih hd)

/-! Arithmetic of the remap indices. -/

lemma digits3_lt {N a b c : ℕ} (ha : a < N) (hb : b < N) (hc : c < N) :
    a + b * N + c * (N * N) < N * N * N := by
  have h2 : a + b * N < N * N :=
    calc a + b * N < N + b * N := Nat.add_lt_add_right ha (b * N)
    _ = (b + 1) * N := by ring
    _ ≤ N * N := Nat.mul_le_mul_right N (Nat.succ_le_of_lt hb)
  calc a + b * N + c * (N * N) < N * N + c * (N * N) :=
        Nat.add_lt_add_right h2 (c * (N * N))
  _ = (c + 1) * (N * N) := by ring
  _ ≤ N * (N * N) := Nat.mul_le_mul_right (N * N) (Nat.succ_le_of_lt hc)
  _ = N * N * N := by ring

lemma digits3_inj {N a b c a' b' c' : ℕ} (ha : a < N) (hb : b < N) (hc : c < N)
    (ha' : a' < N) (hb' : b' < N) (hc' : c' < N)
    (h : a + b * N + c * (N * N) = a' + b' * N + c' * (N * N)) :
    a = a' ∧ b = b' ∧ c = c' := by
  have hN : 0 < N := lt_of_le_of_lt (Nat.zero_le a) ha
  have key : ∀ x y z : ℕ, x < N → y < N →
      (x + y * N + z * (N * N)) % N = x ∧ (x + y * N + z * (N * N)) / N = y + z * N := by
    intro x y z hx hy
    have e : x + y * N + z * (N * N) = x + (y + z * N) * N := by ring
    constructor
    · rw [e, Nat.add_mul_mod_self_right, Nat.mod_eq_of_lt hx]
    · rw [e, Nat.add_mul_div_right _ _ hN, Nat.div_eq_of_lt hx, Nat.zero_add]
  obtain ⟨m1, d1⟩ := key a b c ha hb
  obtain ⟨m2, d2⟩ := key a' b' c' ha' hb'
  have hx : a = a' := by rw [← m1, ← m2, h]
  have hyz : b + c * N = b' + c' * N := by rw [← d1, ← d2, h]
  have hy : b = b' := by
    have l1 : (b + c * N) % N = b := by
      rw [Nat.add_mul_mod_self_right, Nat.mod_eq_of_lt hb]
    have l2 : (b' + c' * N) % N = b' := by
      rw [Nat.add_mul_mod_self_right, Nat.mod_eq_of_lt hb']
    rw [← l1, ← l2, hyz]
  have hz : c = c' := by
    have l1 : (b + c * N) / N = c := by
      rw [Nat.add_mul_div_right _ _ hN, Nat.div_eq_of_lt hb, Nat.zero_add]
    have l2 : (b' + c' * N) / N = c' := by
      rw [Nat.add_mul_div_right _ _ hN, Nat.div_eq_of_lt hb', Nat.zero_add]
    rw [← l1, ← l2, hyz]
  exact ⟨hx, hy, hz⟩

lemma div_lt_of_lt_sq {N k : ℕ} (hk : k < N * N) : k / N < N := by
  have hN : 0 < N := by
    rcases Nat.eq_zero_or_pos N with h | h
    · subst h; simp at hk
    · exact h
  exact (Nat.div_lt_iff_lt_mul hN).mpr hk

lemma idxX_eq {N i k : ℕ} (hi : i < N) (hk : k < N * N) :
    idxX N i k = (N - 1 - i) + (k / N) * N + (k % N) * (N * N) := by
  have hN : 0 < N := lt_of_le_of_lt (Nat.zero_le i) hi
  have hsplit : N * (k / N) + k % N = k := Nat.div_add_mod k N
  have hk2 : k * N * N = N * N * N * (k / N) + (k % N) * (N * N) := by
    calc k * N * N = (N * (k / N) + k % N) * N * N := by rw [hsplit]
    _ = N * N * N * (k / N) + (k % N) * (N * N) := by ring
  have hNN : N ≤ N * N * N := by nlinarith
  have h1 : N * (k / N) ≤ N * N * N * (k / N) := Nat.mul_le_mul_right (k / N) hNN
  have key : ∀ A B C : ℕ, C ≤ A →
      0 + (N - 1) + (A + B) - i - (A - C) = N - 1 - i + C + B := by
    intro A B C hCA; omega
  unfold idxX
  rw [hk2, Nat.mul_comm (k / N) N]
  exact key _ _ _ h1

lemma idxY_eq {N i k : ℕ} (hi : i < N) (hk : k < N * N) :
    idxY N i k = (N - 1 - k % N) + i * N + (k / N) * (N * N) := by
  have hN : 0 < N := lt_of_le_of_lt (Nat.zero_le i) hi
  have hc : k % N < N := Nat.mod_lt _ hN
  have key : ∀ A B c' : ℕ, c' < N → A + B + N - c' - 1 = N - 1 - c' + A + B := by
    intro A B c' h; omega
  unfold idxY
  rw [Nat.mul_comm (k / N) (N * N)]
  exact key _ _ _ hc

lemma idxZ_eq {N i k : ℕ} (hk : k < N * N) :
    idxZ N i k = k % N + (k / N) * N + i * (N * N) := by
  have hsplit : N * (k / N) + k % N = k := Nat.div_add_mod k N
  have key : ∀ A u c' : ℕ, u + c' = k → A + k = c' + u + A := by
    intro A u c' h; omega
  unfold idxZ
  rw [Nat.mul_comm i (N * N), Nat.mul_comm (k / N) N]
  exact key _ _ _ hsplit

lemma digits2_inj {M a b a' b' : ℕ} (ha : a < M) (ha' : a' < M)
    (h : a + b * M = a' + b' * M) : a = a' ∧ b = b' := by
  have hM : 0 < M := lt_of_le_of_lt (Nat.zero_le a) ha
  have l1 : (a + b * M) % M = a := by
    rw [Nat.add_mul_mod_self_right, Nat.mod_eq_of_lt ha]
  have l2 : (a' + b' * M) % M = a' := by
    rw [Nat.add_mul_mod_self_right, Nat.mod_eq_of_lt ha']
  have d1 : (a + b * M) / M = b := by
    rw [Nat.add_mul_div_right _ _ hM, Nat.div_eq_of_lt ha, Nat.zero_add]
  have d2 : (a' + b' * M) / M = b' := by
    rw [Nat.add_mul_div_right _ _ hM, Nat.div_eq_of_lt ha', Nat.zero_add]
  constructor
  · rw [← l1, ← l2, h]
  · rw [← d1, ← d2, h]

/-! Bounds and injectivity of the three remaps (for claims about write
safety, and to localize each pass's effect on the buffer). -/

lemma idxX_lt {N i k : ℕ} (hi : i < N) (hk : k < N * N) :
    idxX N i k < N * N * N := by
  have hN : 0 < N := lt_of_le_of_lt (Nat.zero_le i) hi
  rw [idxX_eq hi hk]
  exact digits3_lt (by omega) (div_lt_of_lt_sq hk) (Nat.mod_lt _ hN)

lemma idxY_lt {N i k : ℕ} (hi : i < N) (hk : k < N * N) :
    idxY N i k < N * N * N := by
  have hN : 0 < N := lt_of_le_of_lt (Nat.zero_le i) hi
  have hc : k % N < N := Nat.mod_lt _ hN
  rw [idxY_eq hi hk]
  exact digits3_lt (by omega) hi (div_lt_of_lt_sq hk)

lemma idxZ_lt {N i k : ℕ} (hi : i < N) (hk : k < N * N) :
    idxZ N i k < N * N * N := by
  have hN : 0 < N := lt_of_le_of_lt (Nat.zero_le i) hi
  rw [idxZ_eq hk]
  exact digits3_lt (Nat.mod_lt _ hN) (div_lt_of_lt_sq hk) hi

lemma mod_div_recover {N k k' : ℕ} (hm : k % N = k' % N) (hd : k / N = k' / N) :
    k = k' := by
  have e1 : N * (k / N) + k % N = k := Nat.div_add_mod k N
  have e2 : N * (k' / N) + k' % N = k' := Nat.div_add_mod k' N
  rw [hm, hd] at e1
  exact e1.symm.trans e2

lemma idxX_inj {N i k i' k' : ℕ} (hi : i < N) (hk : k < N * N)
    (hi' : i' < N) (hk' : k' < N * N) (h : idxX N i k = idxX N i' k') :
    i = i' ∧ k = k' := by
  have hN : 0 < N := lt_of_le_of_lt (Nat.zero_le i) hi
  rw [idxX_eq hi hk, idxX_eq hi' hk'] at h
  obtain ⟨h1, h2, h3⟩ := digits3_inj (by omega) (div_lt_of_lt_sq hk)
    (Nat.mod_lt _ hN) (by omega) (div_lt_of_lt_sq hk') (Nat.mod_lt _ hN) h
  exact ⟨by omega, mod_div_recover h3 h2⟩

lemma idxY_inj {N i k i' k' : ℕ} (hi : i < N) (hk : k < N * N)
    (hi' : i' < N) (hk' : k' < N * N) (h : idxY N i k = idxY N i' k') :
    i = i' ∧ k = k' := by
  have hN : 0 < N := lt_of_le_of_lt (Nat.zero_le i) hi
  have hc : k % N < N := Nat.mod_lt _ hN
  have hc' : k' % N < N := Nat.mod_lt _ hN
  rw [idxY_eq hi hk, idxY_eq hi' hk'] at h
  obtain ⟨h1, h2, h3⟩ := digits3_inj (by omega) hi (div_lt_of_lt_sq hk)
    (by omega) hi' (div_lt_of_lt_sq hk') h
  have hm : k % N = k' % N := by omega
  exact ⟨h2, mod_div_recover hm h3⟩

lemma idxZ_inj {N i k i' k' : ℕ} (hi : i < N) (hk : k < N * N)
    (hi' : i' < N) (hk' : k' < N * N) (h : idxZ N i k = idxZ N i' k') :
    i = i' ∧ k = k' := by
  have hN : 0 < N := lt_of_le_of_lt (Nat.zero_le i) hi
  rw [idxZ_eq hk, idxZ_eq hk'] at h
  obtain ⟨h1, h2, h3⟩ := digits3_inj (Nat.mod_lt _ hN) (div_lt_of_lt_sq hk) hi
    (Nat.mod_lt _ hN) (div_lt_of_lt_sq hk') hi' h
  exact ⟨h3, mod_div_recover h1 h2⟩

/-! The value of each remap at the preimage of a canonical voxel
coordinate `(x, y, z)` (flat index `x + y*N + z*N*N`). -/

lemma row_col_lt_sq {N y z : ℕ} (hy : y < N) (hz : z < N) : y * N + z < N * N := by
  calc y * N + z < y * N + N := Nat.add_lt_add_left hz (y * N)
  _ = (y + 1) * N := by ring
  _ ≤ N * N := Nat.mul_le_mul_right N (Nat.succ_le_of_lt hy)

lemma row_col_div {N y z : ℕ} (hz : z < N) : (y * N + z) / N = y := by
  have hN : 0 < N := lt_of_le_of_lt (Nat.zero_le z) hz
  rw [Nat.add_comm, Nat.add_mul_div_right _ _ hN, Nat.div_eq_of_lt hz, Nat.zero_add]

lemma row_col_mod {N y z : ℕ} (hz : z < N) : (y * N + z) % N = z := by
  rw [Nat.add_comm, Nat.add_mul_mod_self_right, Nat.mod_eq_of_lt hz]

lemma idxX_val {N x y z : ℕ} (hx : x < N) (hy : y < N) (hz : z < N) :
    idxX N (N - 1 - x) (y * N + z) = x + y * N + z * (N * N) := by
  have hi : N - 1 - x < N := by omega
  have hk : y * N + z < N * N := row_col_lt_sq hy hz
  rw [idxX_eq hi hk, row_col_div hz, row_col_mod hz]
  have : N - 1 - (N - 1 - x) = x := by omega
  rw [this]

lemma idxY_val {N x y z : ℕ} (hx : x < N) (hy : y < N) (hz : z < N) :
    idxY N y (z * N + (N - 1 - x)) = x + y * N + z * (N * N) := by
  have hc : N - 1 - x < N := by omega
  have hk : z * N + (N - 1 - x) < N * N := row_col_lt_sq hz hc
  rw [idxY_eq hy hk, row_col_div hc, row_col_mod hc]
  have : N - 1 - (N - 1 - x) = x := by omega
  rw [this]

lemma idxZ_val {N x y z : ℕ} (hx : x < N) (hy : y < N) (hz : z < N) :
    idxZ N z (y * N + x) = x + y * N + z * (N * N) := by
  have hk : y * N + x < N * N := row_col_lt_sq hy hx
  rw [idxZ_eq hk, row_col_div hx, row_col_mod hx]

/-! Per-pixel evaluation of the loop bodies. -/

lemma chpos_inj {p p' ch ch' : ℕ} (hch : ch < 4) (hch' : ch' < 4)
    (h : p * 4 + ch = p' * 4 + ch') : p = p' ∧ ch = ch' := by omega

lemma pixX_hit (N : ℕ) (cap : ℕ → ℕ → ℕ) (i k : ℕ) (d : ℕ → ℕ) {ch : ℕ}
    (hch : ch < 4) :
    pixX N cap i k d (idxX N i k * 4 + ch) = cap i (4 * k + ch) := by
  have h01 : idxX N i k * 4 + 0 ≠ idxX N i k * 4 + 1 := by omega
  have h02 : idxX N i k * 4 + 0 ≠ idxX N i k * 4 + 2 := by omega
  have h03 : idxX N i k * 4 + 0 ≠ idxX N i k * 4 + 3 := by omega
  have h12 : idxX N i k * 4 + 1 ≠ idxX N i k * 4 + 2 := by omega
  have h13 : idxX N i k * 4 + 1 ≠ idxX N i k * 4 + 3 := by omega
  have h23 : idxX N i k * 4 + 2 ≠ idxX N i k * 4 + 3 := by omega
  unfold pixX
  interval_cases ch
  · rw [upd_ne _ _ _ _ h03, upd_ne _ _ _ _ h02, upd_ne _ _ _ _ h01, upd_self]
  · rw [upd_ne _ _ _ _ h13, upd_ne _ _ _ _ h12, upd_self]
  · rw [upd_ne _ _ _ _ h23, upd_self]
  · rw [upd_self]

lemma pixX_miss (N : ℕ) (cap : ℕ → ℕ → ℕ) (i k : ℕ) (d : ℕ → ℕ) {q : ℕ}
    (h : ∀ ch < 4, q ≠ idxX N i k * 4 + ch) :
    pixX N cap i k d q = d q := by
  unfold pixX
  rw [upd_ne _ _ _ _ (h 3 (by omega)), upd_ne _ _ _ _ (h 2 (by omega)),
    upd_ne _ _ _ _ (h 1 (by omega)), upd_ne _ _ _ _ (h 0 (by omega))]

lemma condupd_eval (d : ℕ → ℕ) (p v : ℕ) (c : Prop) [Decidable c] :
    (if c then upd d p v else d) p = if c then v else d p := by
  split
  · exact upd_self d p v
  · rfl

lemma pixY_hit (N : ℕ) (cap : ℕ → ℕ → ℕ) (i k : ℕ) (d : ℕ → ℕ) {ch : ℕ}
    (hch : ch < 4) :
    pixY N cap i k d (idxY N i k * 4 + ch) =
      if 0 < cap i (4 * k + ch) then cap i (4 * k + ch)
      else d (idxY N i k * 4 + ch) := by
  have h01 : idxY N i k * 4 + 0 ≠ idxY N i k * 4 + 1 := by omega
  have h02 : idxY N i k * 4 + 0 ≠ idxY N i k * 4 + 2 := by omega
  have h03 : idxY N i k * 4 + 0 ≠ idxY N i k * 4 + 3 := by omega
  have h10 : idxY N i k * 4 + 1 ≠ idxY N i k * 4 + 0 := by omega
  have h12 : idxY N i k * 4 + 1 ≠ idxY N i k * 4 + 2 := by omega
  have h13 : idxY N i k * 4 + 1 ≠ idxY N i k * 4 + 3 := by omega
  have h20 : idxY N i k * 4 + 2 ≠ idxY N i k * 4 + 0 := by omega
  have h21 : idxY N i k * 4 + 2 ≠ idxY N i k * 4 + 1 := by omega
  have h23 : idxY N i k * 4 + 2 ≠ idxY N i k * 4 + 3 := by omega
  have h30 : idxY N i k * 4 + 3 ≠ idxY N i k * 4 + 0 := by omega
  have h31 : idxY N i k * 4 + 3 ≠ idxY N i k * 4 + 1 := by omega
  have h32 : idxY N i k * 4 + 3 ≠ idxY N i k * 4 + 2 := by omega
  simp only [pixY]
  interval_cases ch
  · rw [condupd_ne _ _ _ _ h03, condupd_ne _ _ _ _ h02, condupd_ne _ _ _ _ h01,
      condupd_eval]
  · rw [condupd_ne _ _ _ _ h13, condupd_ne _ _ _ _ h12, condupd_eval,
      condupd_ne _ _ _ _ h10]
  · rw [condupd_ne _ _ _ _ h23, condupd_eval, condupd_ne _ _ _ _ h21,
      condupd_ne _ _ _ _ h20]
  · rw [condupd_eval, condupd_ne _ _ _ _ h32, condupd_ne _ _ _ _ h31,
      condupd_ne _ _ _ _ h30]

lemma pixY_miss (N : ℕ) (cap : ℕ → ℕ → ℕ) (i k : ℕ) (d : ℕ → ℕ) {q : ℕ}
    (h : ∀ ch < 4, q ≠ idxY N i k * 4 + ch) :
    pixY N cap i k d q = d q := by
  simp only [pixY]
  rw [condupd_ne _ _ _ _ (h 3 (by omega)), condupd_ne _ _ _ _ (h 2 (by omega)),
    condupd_ne _ _ _ _ (h 1 (by omega)), condupd_ne _ _ _ _ (h 0 (by omega))]

lemma byteZ_hit (N : ℕ) (cap : ℕ → ℕ → ℕ) (i j : ℕ) (d : ℕ → ℕ) :
    byteZ N cap i j d (N * N * i * 4 + j) =
      if 0 < cap i j then cap i j else d (N * N * i * 4 + j) := by
  unfold byteZ
  exact condupd_eval d (N * N * i * 4 + j) (cap i j) _

lemma byteZ_miss (N : ℕ) (cap : ℕ → ℕ → ℕ) (i j : ℕ) (d : ℕ → ℕ) {q : ℕ}
    (h : q ≠ N * N * i * 4 + j) :
    byteZ N cap i j d q = d q := by
  unfold byteZ
  exact condupd_ne _ _ _ _ h _

/-! Whole-pass evaluation at a voxel coordinate. -/

lemma passX_eval {N : ℕ} (cap : ℕ → ℕ → ℕ) (d : ℕ → ℕ) {x y z ch : ℕ}
    (hx : x < N) (hy : y < N) (hz : z < N) (hch : ch < 4) :
    passX N cap d ((x + y * N + z * (N * N)) * 4 + ch) =
      cap (N - 1 - x) (4 * (y * N + z) + ch) := by
  have hi0 : N - 1 - x < N := by omega
  have hk0 : y * N + z < N * N := row_col_lt_sq hy hz
  have hval : idxX N (N - 1 - x) (y * N + z) = x + y * N + z * (N * N) :=
    idxX_val hx hy hz
  have hnohit : ∀ i k, i < N → k < N * N → (i ≠ N - 1 - x ∨ k ≠ y * N + z) →
      ∀ ch' < 4, (x + y * N + z * (N * N)) * 4 + ch ≠ idxX N i k * 4 + ch' := by
    intro i k hi hk hne ch' hch' heq
    obtain ⟨hp, hc⟩ := chpos_inj hch hch' heq
    rw [← hval] at hp
    obtain ⟨e1, e2⟩ := idxX_inj hi0 hk0 hi hk hp
    rcases hne with h | h
    · exact h e1.symm
    · exact h e2.symm
  have hslice_hit : ∀ d', sliceX N cap (N - 1 - x) d'
      ((x + y * N + z * (N * N)) * 4 + ch) = cap (N - 1 - x) (4 * (y * N + z) + ch) := by
    intro d'
    refine iterUpTo_single (fun _ => cap (N - 1 - x) (4 * (y * N + z) + ch))
      (fun k hk hne d'' => pixX_miss N cap _ k d''
        (hnohit _ k hi0 hk (Or.inr hne))) (fun d'' => ?_) hk0 d'
    rw [← hval]
    exact pixX_hit N cap _ _ d'' hch
  have hslice_miss : ∀ i < N, i ≠ N - 1 - x → ∀ d',
      sliceX N cap i d' ((x + y * N + z * (N * N)) * 4 + ch) =
        d' ((x + y * N + z * (N * N)) * 4 + ch) := by
    intro i hi hne d'
    exact iterUpTo_miss (fun k hk d'' => pixX_miss N cap i k d''
      (hnohit i k hi hk (Or.inl hne))) d'
  exact iterUpTo_single (fun _ => cap (N - 1 - x) (4 * (y * N + z) + ch))
    hslice_miss hslice_hit hi0 d

lemma passY_eval {N : ℕ} (cap : ℕ → ℕ → ℕ) (d : ℕ → ℕ) {x y z ch : ℕ}
    (hx : x < N) (hy : y < N) (hz : z < N) (hch : ch < 4) :
    passY N cap d ((x + y * N + z * (N * N)) * 4 + ch) =
      if 0 < cap y (4 * (z * N + (N - 1 - x)) + ch)
      then cap y (4 * (z * N + (N - 1 - x)) + ch)
      else d ((x + y * N + z * (N * N)) * 4 + ch) := by
  have hk0 : z * N + (N - 1 - x) < N * N := row_col_lt_sq hz (by omega)
  have hval : idxY N y (z * N + (N - 1 - x)) = x + y * N + z * (N * N) :=
    idxY_val hx hy hz
  have hnohit : ∀ i k, i < N → k < N * N → (i ≠ y ∨ k ≠ z * N + (N - 1 - x)) →
      ∀ ch' < 4, (x + y * N + z * (N * N)) * 4 + ch ≠ idxY N i k * 4 + ch' := by
    intro i k hi hk hne ch' hch' heq
    obtain ⟨hp, hc⟩ := chpos_inj hch hch' heq
    rw [← hval] at hp
    obtain ⟨e1, e2⟩ := idxY_inj hy hk0 hi hk hp
    rcases hne with h | h
    · exact h e1.symm
    · exact h e2.symm
  have hslice_hit : ∀ d', sliceY N cap y d' ((x + y * N + z * (N * N)) * 4 + ch) =
      if 0 < cap y (4 * (z * N + (N - 1 - x)) + ch)
      then cap y (4 * (z * N + (N - 1 - x)) + ch)
      else d' ((x + y * N + z * (N * N)) * 4 + ch) := by
    intro d'
    refine iterUpTo_single
      (fun old => if 0 < cap y (4 * (z * N + (N - 1 - x)) + ch)
        then cap y (4 * (z * N + (N - 1 - x)) + ch) else old)
      (fun k hk hne d'' => pixY_miss N cap _ k d''
        (hnohit _ k hy hk (Or.inr hne))) (fun d'' => ?_) hk0 d'
    rw [← hval]
    exact pixY_hit N cap _ _ d'' hch
  have hslice_miss : ∀ i < N, i ≠ y → ∀ d',
      sliceY N cap i d' ((x + y * N + z * (N * N)) * 4 + ch) =
        d' ((x + y * N + z * (N * N)) * 4 + ch) := by
    intro i hi hne d'
    exact iterUpTo_miss (fun k hk d'' => pixY_miss N cap i k d''
      (hnohit i k hi hk (Or.inl hne))) d'
  exact iterUpTo_single
    (fun old => if 0 < cap y (4 * (z * N + (N - 1 - x)) + ch)
      then cap y (4 * (z * N + (N - 1 - x)) + ch) else old)
    hslice_miss hslice_hit hy d

lemma passZ_eval {N : ℕ} (cap : ℕ → ℕ → ℕ) (d : ℕ → ℕ) {x y z ch : ℕ}
    (hx : x < N) (hy : y < N) (hz : z < N) (hch : ch < 4) :
    passZ N cap d ((x + y * N + z * (N * N)) * 4 + ch) =
      if 0 < cap z (4 * (y * N + x) + ch) then cap z (4 * (y * N + x) + ch)
      else d ((x + y * N + z * (N * N)) * 4 + ch) := by
  have hj0 : 4 * (y * N + x) + ch < N * N * 4 := by
    have := row_col_lt_sq hy hx
    omega
  have hpos : N * N * z * 4 + (4 * (y * N + x) + ch) =
      (x + y * N + z * (N * N)) * 4 + ch := by
    rw [← idxZ_val hx hy hz]
    unfold idxZ
    ring
  have hnohit : ∀ i j, i < N → j < N * N * 4 → (i ≠ z ∨ j ≠ 4 * (y * N + x) + ch) →
      (x + y * N + z * (N * N)) * 4 + ch ≠ N * N * i * 4 + j := by
    intro i j hi hj hne heq
    rw [← hpos] at heq
    have e1 : N * N * z * 4 + (4 * (y * N + x) + ch) =
        (4 * (y * N + x) + ch) + z * (N * N * 4) := by ring
    have e2 : N * N * i * 4 + j = j + i * (N * N * 4) := by ring
    rw [e1, e2] at heq
    obtain ⟨f1, f2⟩ := digits2_inj hj0 hj heq
    rcases hne with h | h
    · exact h f2.symm
    · exact h f1.symm
  have hslice_hit : ∀ d', sliceZ N cap z d' ((x + y * N + z * (N * N)) * 4 + ch) =
      if 0 < cap z (4 * (y * N + x) + ch) then cap z (4 * (y * N + x) + ch)
      else d' ((x + y * N + z * (N * N)) * 4 + ch) := by
    intro d'
    refine iterUpTo_single
      (fun old => if 0 < cap z (4 * (y * N + x) + ch)
        then cap z (4 * (y * N + x) + ch) else old)
      (fun j hj hne d'' => byteZ_miss N cap z j d''
        (hnohit z j hz hj (Or.inr hne))) (fun d'' => ?_) hj0 d'
    rw [← hpos]
    exact byteZ_hit N cap z _ d''
  have hslice_miss : ∀ i < N, i ≠ z → ∀ d',
      sliceZ N cap i d' ((x + y * N + z * (N * N)) * 4 + ch) =
        d' ((x + y * N + z * (N * N)) * 4 + ch) := by
    intro i hi hne d'
    exact iterUpTo_miss (fun j hj d'' => byteZ_miss N cap i j d''
      (hnohit i j hi hj (Or.inl hne))) d'
  exact iterUpTo_single
    (fun old => if 0 < cap z (4 * (y * N + x) + ch)
      then cap z (4 * (y * N + x) + ch) else old)
    hslice_miss hslice_hit hz d

/-- Merge result at a voxel, for an arbitrary initial buffer: the X pass
writes the buffer unconditionally, the Y and Z passes overwrite only
non-zero capture bytes. -/
lemma mergePasses_eval {N : ℕ} (capX capY capZ : ℕ → ℕ → ℕ) (d : ℕ → ℕ)
    {x y z ch : ℕ} (hx : x < N) (hy : y < N) (hz : z < N) (hch : ch < 4) :
    mergePasses N capX capY capZ d ((x + y * N + z * (N * N)) * 4 + ch) =
      if 0 < capZ z (4 * (y * N + x) + ch) then capZ z (4 * (y * N + x) + ch)
      else if 0 < capY y (4 * (z * N + (N - 1 - x)) + ch)
        then capY y (4 * (z * N + (N - 1 - x)) + ch)
      else capX (N - 1 - x) (4 * (y * N + z) + ch) := by
  unfold mergePasses
  rw [passZ_eval capZ _ hx hy hz hch, passY_eval capY _ hx hy hz hch,
    passX_eval capX _ hx hy hz hch]

/-! Claim theorems for the merge. -/

/-- C1: after the merge step of `voxelize`, each RGBA channel of the volume
at voxel `(x, y, z)` equals the combination of the three axis captures in
the order X, then Y, then Z, a later axis's remapped channel byte
overwriting the earlier value only when it is non-zero: the final value is
the Z capture's remapped byte if non-zero, else the Y capture's remapped
byte if non-zero, else the X capture's remapped byte. -/
theorem merge_combine_rule {N : ℕ} (capX capY capZ : ℕ → ℕ → ℕ)
    {x y z ch : ℕ} (hx : x < N) (hy : y < N) (hz : z < N) (hch : ch < 4) :
    mergeData N capX capY capZ ((x + y * N + z * (N * N)) * 4 + ch) =
      if 0 < capZ z (4 * (y * N + x) + ch) then capZ z (4 * (y * N + x) + ch)
      else if 0 < capY y (4 * (z * N + (N - 1 - x)) + ch)
        then capY y (4 * (z * N + (N - 1 - x)) + ch)
      else capX (N - 1 - x) (4 * (y * N + z) + ch) := by
  unfold mergeData
  exact mergePasses_eval capX capY capZ _ hx hy hz hch

theorem merge_combine_rule_witness :
    1 < 2 ∧ 0 < 2 ∧ 1 < 2 ∧ 2 < 4 ∧
    mergeData 2 (fun i j => i + j) (fun _ _ => 0) (fun i j => i * j)
      ((1 + 0 * 2 + 1 * (2 * 2)) * 4 + 2) = 6 :=
  ⟨by decide, by decide, by decide, by decide,
    merge_combine_rule (N := 2) (fun i j => i + j) (fun _ _ => 0) (fun i j => i * j)
      (by decide) (by decide) (by decide) (by decide)⟩

/-- C8: the merged volume is a function of the three capture contents
alone.  Every byte of the `N*N*N*4`-byte volume is written unconditionally
by the X pass, so the merge result does not depend on the initial contents
of the accumulation buffer; in the source that buffer is freshly allocated
and zero-initialized on every call, hence merging the same three captures
twice yields bit-identical volume data. -/
theorem merge_no_hidden_accumulation {N : ℕ} (capX capY capZ : ℕ → ℕ → ℕ)
    (init : ℕ → ℕ) {q : ℕ} (hq : q < N * N * N * 4) :
    mergePasses N capX capY capZ init q = mergeData N capX capY capZ q := by
  have hN : 0 < N := by
    rcases Nat.eq_zero_or_pos N with h | h
    · subst h; simp at hq
    · exact h
  have hch : q % 4 < 4 := Nat.mod_lt _ (by omega)
  have hp : q / 4 < N * N * N := by
    refine (Nat.div_lt_iff_lt_mul (by omega)).mpr ?_
    calc q < N * N * N * 4 := hq
    _ = N * N * N * 4 := rfl
  have hx : q / 4 % N < N := Nat.mod_lt _ hN
  have hy : q / 4 / N % N < N := Nat.mod_lt _ hN
  have hz : q / 4 / N / N < N := by
    rw [Nat.div_div_eq_div_mul]
    refine (Nat.div_lt_iff_lt_mul (by positivity)).mpr ?_
    calc q / 4 < N * N * N := hp
    _ = N * (N * N) := by ring
  have inner : q / 4 / N % N + q / 4 / N / N * N = q / 4 / N := by
    rw [Nat.mul_comm (q / 4 / N / N) N]
    exact Nat.mod_add_div (q / 4 / N) N
  have outer : q / 4 % N + q / 4 / N * N = q / 4 := by
    rw [Nat.mul_comm (q / 4 / N) N]
    exact Nat.mod_add_div (q / 4) N
  have key : q / 4 % N + (q / 4 / N % N) * N + (q / 4 / N / N) * (N * N) = q / 4 := by
    calc q / 4 % N + (q / 4 / N % N) * N + (q / 4 / N / N) * (N * N)
        = q / 4 % N + (q / 4 / N % N + q / 4 / N / N * N) * N := by ring
    _ = q / 4 % N + (q / 4 / N) * N := by rw [inner]
    _ = q / 4 := outer
  have hq4 : q / 4 * 4 + q % 4 = q := by omega
  have hdecomp : (q / 4 % N + (q / 4 / N % N) * N + (q / 4 / N / N) * (N * N)) * 4
      + q % 4 = q := by
    rw [key]
    exact hq4
  obtain ⟨x, y, z, ch, hx', hy', hz', hch', rfl⟩ :
      ∃ x y z ch, x < N ∧ y < N ∧ z < N ∧ ch < 4 ∧
        q = (x + y * N + z * (N * N)) * 4 + ch :=
    ⟨q / 4 % N, q / 4 / N % N, q / 4 / N / N, q % 4, hx, hy, hz, hch, hdecomp.symm⟩
  unfold mergeData
  rw [mergePasses_eval capX capY capZ init hx' hy' hz' hch',
    mergePasses_eval capX capY capZ _ hx' hy' hz' hch']

theorem merge_no_hidden_accumulation_witness :
    3 < 1 * 1 * 1 * 4 ∧
    mergePasses 1 (fun _ _ => 5) (fun _ _ => 0) (fun _ _ => 0) (fun _ => 9) 3 =
      mergeData 1 (fun _ _ => 5) (fun _ _ => 0) (fun _ _ => 0) 3 :=
  ⟨by decide,
    merge_no_hidden_accumulation (N := 1) (fun _ _ => 5) (fun _ _ => 0)
      (fun _ _ => 0) (fun _ => 9) (by decide)⟩

/-- C10: the merge remap indices are in-bounds and alias-free per axis:
for every slice `i < N` and pixel `k < N*N`, each axis's flat voxel index
lies in `[0, N*N*N)`, and within one axis pass distinct `(i, k)` pairs map
to distinct flat indices. -/
theorem merge_remap_inbounds_injective {N i k i' k' : ℕ}
    (hi : i < N) (hk : k < N * N) (hi' : i' < N) (hk' : k' < N * N) :
    (idxX N i k < N * N * N ∧ idxY N i k < N * N * N ∧ idxZ N i k < N * N * N) ∧
    ((i, k) ≠ (i', k') →
      idxX N i k ≠ idxX N i' k' ∧ idxY N i k ≠ idxY N i' k' ∧
        idxZ N i k ≠ idxZ N i' k') := by
  refine ⟨⟨idxX_lt hi hk, idxY_lt hi hk, idxZ_lt hi hk⟩,
    fun hne => ⟨fun h => ?_, fun h => ?_, fun h => ?_⟩⟩
  · obtain ⟨e1, e2⟩ := idxX_inj hi hk hi' hk' h
    exact hne (by rw [e1, e2])
  · obtain ⟨e1, e2⟩ := idxY_inj hi hk hi' hk' h
    exact hne (by rw [e1, e2])
  · obtain ⟨e1, e2⟩ := idxZ_inj hi hk hi' hk' h
    exact hne (by rw [e1, e2])

theorem merge_remap_inbounds_injective_witness :
    0 < 2 ∧ 1 < 2 * 2 ∧ 1 < 2 ∧ 1 < 2 * 2 ∧
    ((idxX 2 0 1 < 2 * 2 * 2 ∧ idxY 2 0 1 < 2 * 2 * 2 ∧ idxZ 2 0 1 < 2 * 2 * 2) ∧
      (((0 : ℕ), (1 : ℕ)) ≠ ((1 : ℕ), (1 : ℕ)) →
        idxX 2 0 1 ≠ idxX 2 1 1 ∧ idxY 2 0 1 ≠ idxY 2 1 1 ∧
          idxZ 2 0 1 ≠ idxZ 2 1 1)) :=
  ⟨by decide, by decide, by decide, by decide,
    merge_remap_inbounds_injective (N := 2) (by decide) (by decide) (by decide)
      (by decide)⟩

/-! Cone march loop lemmas. -/

lemma coneStep_dist (vol : ℚ → RGBA) (v t s : ℚ) (st : CTState) :
    (coneStep vol v t s st).dist = st.dist + max v (2 * t * st.dist) * s := rfl

lemma coneStep_alpha (vol : ℚ → RGBA) (v t s : ℚ) (st : CTState) :
    (coneStep vol v t s st).alpha = st.alpha + (1 - st.alpha) * (vol st.dist).a := rfl

lemma coneStep_occl (vol : ℚ → RGBA) (v t s : ℚ) (st : CTState) :
    (coneStep vol v t s st).occl = st.occl + (1 - st.alpha) * (vol st.dist).a := rfl

/-- Each executed iteration advances `dist` by at least `v * s`. -/
lemma coneStep_dist_ge (vol : ℚ → RGBA) {v s : ℚ} (t : ℚ) (hs : 0 < s)
    (st : CTState) : st.dist + v * s ≤ (coneStep vol v t s st).dist := by
  rw [coneStep_dist]
  have h : v * s ≤ max v (2 * t * st.dist) * s :=
    mul_le_mul_of_nonneg_right (le_max_left _ _) hs.le
  linarith

/-- The loop's `occlusion` and `alpha` accumulators receive identical
increments, so the invariant `occl = alpha` is preserved. -/
lemma coneLoop_occl_eq_alpha (vol : ℚ → RGBA) (v t s : ℚ) :
    ∀ (fuel : ℕ) (st : CTState), st.occl = st.alpha →
      (coneLoop vol v t s fuel st).1.occl = (coneLoop vol v t s fuel st).1.alpha := by
  intro fuel
  induction fuel with
  | zero => intro st h; exact h
  | succ fuel ih =>
      intro st h
      have hstep : (coneStep vol v t s st).occl = (coneStep vol v t s st).alpha := by
        rw [coneStep_occl, coneStep_alpha, h]
      simp only [coneLoop]
      split
      · split
        · exact hstep
        · exact ih _ hstep
      · exact h

/-- Iteration-count invariant: either the loop from `st` performs no
iteration, or its count `c` satisfies `(c - 1) * (v * s) < 50 * v - dist`. -/
lemma coneLoop_count_key (vol : ℚ → RGBA) {v s : ℚ} (t : ℚ) (hv : 0 < v)
    (hs : 0 < s) :
    ∀ (fuel : ℕ) (st : CTState),
      (coneLoop vol v t s fuel st).2 = 0 ∨
      (((coneLoop vol v t s fuel st).2 : ℚ) - 1) * (v * s) < 50 * v - st.dist := by
  intro fuel
  induction fuel with
  | zero => intro st; exact Or.inl rfl
  | succ fuel ih =>
      intro st
      by_cases hd : st.dist < 50 * v
      · simp only [coneLoop]
        rw [if_pos hd]
        have hstep := coneStep_dist_ge vol (v := v) t hs st
        by_cases hb : (coneStep vol v t s st).alpha > 0.95
        · rw [if_pos hb]
          right
          norm_num
          linarith
        · rw [if_neg hb]
          right
          push_cast
          rcases ih (coneStep vol v t s st) with h0 | h1
          · rw [h0]
            norm_num
            linarith
          · linarith
      · simp only [coneLoop]
        rw [if_neg hd]
        exact Or.inl rfl

/-! Claim theorems for the cone march. -/

/-- C9: when `coneTrace` returns, the `occlusion` out-parameter equals the
alpha component of the returned `vec4(color, alpha)`: both start at 0 and
receive the identical increment `(1 - alphaBefore) * sampleAlpha` at every
step. -/
theorem coneTrace_occlusion_eq_alpha (vol : ℚ → RGBA) (v t s : ℚ) (fuel : ℕ) :
    (coneTrace vol v t s fuel).1.occl = (coneTrace vol v t s fuel).1.alpha :=
  coneLoop_occl_eq_alpha vol v t s fuel (coneTraceInit v) rfl

/-- C4 (amended): for `voxelWorldSize > 0`, `tanHalfAngle ≥ 0` and
`0 < voxelConeStepSize ≤ 1`, the march loop executes at most
`50 / voxelConeStepSize` iterations — for any volume contents, so in
particular when the accumulated alpha never exceeds 0.95.  (As stated for
every step size `> 0` the claim fails, see the counterexample: each step
advances `dist` by at least `voxelWorldSize * stepSize`, which bounds the
count by `49/stepSize + 1`; this exceeds `50/stepSize` once `stepSize > 1`.) -/
theorem coneTrace_iterations_le (vol : ℚ → RGBA) {v t s : ℚ} (fuel : ℕ)
    (hv : 0 < v) (ht : 0 ≤ t) (hs : 0 < s) (hs1 : s ≤ 1) :
    ((coneTrace vol v t s fuel).2 : ℚ) ≤ 50 / s := by
  have hkey := coneLoop_count_key vol t hv hs fuel (coneTraceInit v)
  have hdiv : (0 : ℚ) < 50 / s := by positivity
  unfold coneTrace
  rcases hkey with h0 | h1
  · rw [h0]
    push_cast
    linarith
  · have hinit : (coneTraceInit v).dist = v := rfl
    rw [hinit] at h1
    set c : ℚ := ((coneLoop vol v t s fuel (coneTraceInit v)).2 : ℚ) with hc
    rw [le_div_iff₀ hs]
    have h2 : (c - 1) * s < 49 := by
      by_contra hcon
      push_neg at hcon
      have hmul : 49 * v ≤ (c - 1) * s * v := mul_le_mul_of_nonneg_right hcon hv.le
      linarith [h1, hmul]
    have h3 : c * s < 49 + s := by linarith [h2]
    linarith [h3, hs1]

theorem coneTrace_iterations_le_witness :
    (0 : ℚ) < 1 ∧ (0 : ℚ) ≤ 0 ∧ (0 : ℚ) < 1 ∧ (1 : ℚ) ≤ 1 ∧
    ((coneTrace (fun _ => ⟨0, 0, 0, 0⟩) 1 0 1 60).2 : ℚ) ≤ 50 / 1 :=
  ⟨by norm_num, le_refl 0, by norm_num, le_refl 1,
    coneTrace_iterations_le (fun _ => ⟨0, 0, 0, 0⟩) 60 (by norm_num)
      (le_refl 0) (by norm_num) (le_refl 1)⟩

set_option maxRecDepth 8192 in
/-- C4 counterexample: with `voxelWorldSize = 1`, `tanHalfAngle = 0`,
`voxelConeStepSize = 3` and an empty volume (alpha never rises), the loop
executes 17 iterations (`dist = 1, 4, ..., 49` all below `50`), which
exceeds the claimed bound `50/3`. -/
theorem coneTrace_iterations_counterexample :
    (coneTrace (fun _ => ⟨0, 0, 0, 0⟩) 1 0 3 20).2 = 17 ∧
    ¬ (((coneTrace (fun _ => ⟨0, 0, 0, 0⟩) 1 0 3 20).2 : ℚ) ≤ 50 / 3) := by
  have h : (coneTrace (fun _ => (⟨0, 0, 0, 0⟩ : RGBA)) 1 0 3 20).2 = 17 := by
    norm_num [coneTrace, coneLoop, coneStep, coneTraceInit, max_def]
  refine ⟨h, ?_⟩
  rw [h]
  norm_num

/-- C5 (amended): an iteration whose updated accumulated alpha strictly
exceeds the 0.95 threshold is the last: the loop returns immediately after
it, with no further iteration and no further volume sample, regardless of
the remaining distance budget.  (As literally stated — "reaches the 0.95
threshold" — the claim fails when alpha lands exactly on 0.95, since the
break test `alpha > 0.95` is strict; see the counterexample.) -/
theorem coneTrace_early_termination (vol : ℚ → RGBA) (v t s : ℚ) (fuel : ℕ)
    (st : CTState) (hd : st.dist < 50 * v)
    (ha : (coneStep vol v t s st).alpha > 0.95) :
    coneLoop vol v t s (fuel + 1) st = (coneStep vol v t s st, 1) := by
  simp only [coneLoop]
  rw [if_pos hd, if_pos ha]

theorem coneTrace_early_termination_witness :
    (coneTraceInit 1).dist < 50 * 1 ∧
    (coneStep (fun _ => ⟨0, 0, 0, 1⟩) 1 0 1 (coneTraceInit 1)).alpha > 0.95 ∧
    coneLoop (fun _ => ⟨0, 0, 0, 1⟩) 1 0 1 (5 + 1) (coneTraceInit 1) =
      (coneStep (fun _ => ⟨0, 0, 0, 1⟩) 1 0 1 (coneTraceInit 1), 1) :=
  ⟨by norm_num [coneTraceInit], by norm_num [coneStep, coneTraceInit],
    coneTrace_early_termination (fun _ => ⟨0, 0, 0, 1⟩) 1 0 1 5 (coneTraceInit 1)
      (by norm_num [coneTraceInit]) (by norm_num [coneStep, coneTraceInit])⟩

/-- C5 counterexample: with every sample's alpha equal to 0.95, the first
iteration ends with accumulated alpha exactly 0.95 — it has reached the
threshold — yet the loop executes a second iteration (the march takes two
samples in total), because the source's break test is the strict
`alpha > 0.95`. -/
theorem coneTrace_threshold_counterexample :
    (coneStep (fun _ => ⟨0, 0, 0, 0.95⟩) 1 0 1 (coneTraceInit 1)).alpha = 0.95 ∧
    (coneTrace (fun _ => ⟨0, 0, 0, 0.95⟩) 1 0 1 10).2 = 2 := by
  constructor
  · norm_num [coneStep, coneTraceInit]
  · norm_num [coneTrace, coneLoop, coneStep, coneTraceInit, max_def]

/-- C2 (code bug evaluation): the `while` body adds the sample color to the
accumulated color twice — once attenuated (`color += (1-alpha) * rgb`,
line 171) and once unattenuated (`color += rgb`, line 174).  Starting from
zero accumulation, one step on a sample of color 1 and alpha 1 leaves
`color = 2`, whereas the front-to-back compositing rule stated by the spec
(modelled by `coneStepSpec`) leaves `color = 1`. -/
theorem coneTrace_compositing_extra_add :
    (coneStep (fun _ => ⟨1, 1, 1, 1⟩) 1 0 1 (coneTraceInit 1)).cr = 2 ∧
    (coneStepSpec (fun _ => ⟨1, 1, 1, 1⟩) 1 0 1 (coneTraceInit 1)).cr = 1 ∧
    (coneStep (fun _ => ⟨1, 1, 1, 1⟩) 1 0 1 (coneTraceInit 1)).cr ≠
      (coneStepSpec (fun _ => ⟨1, 1, 1, 1⟩) 1 0 1 (coneTraceInit 1)).cr := by
  refine ⟨?_, ?_, ?_⟩
  · norm_num [coneStep, coneTraceInit]
  · norm_num [coneStepSpec, coneTraceInit]
  · norm_num [coneStep, coneStepSpec, coneTraceInit]

/-! Claim theorems for configuration and mip selection. -/

/-- C3 counterexample: a tracer constructed with `sceneScale = 1` still
voxelizes with orthographic bounds `±3000` — the constructor argument is
never stored and `voxelize` declares its own `const sceneScale = 3000` —
so the frustum's left bound is not `-sceneScale = -1`. -/
theorem voxelize_scene_scale_counterexample :
    (voxelizeFrustum (VoxelConeTracer.construct 1 100 2) 0).left = -3000 ∧
    (voxelizeFrustum (VoxelConeTracer.construct 1 100 2) 0).left ≠ -1 := by
  constructor
  · norm_num [voxelizeFrustum, voxelizeSceneScale]
  · norm_num [voxelizeFrustum, voxelizeSceneScale]

/-- C3 (amended): for every constructor argument `sceneScale` and every
slice index `i < N`, the orthographic frustums built during voxelization
use the hard-coded constant 3000 — not the configured value: their
left/right/bottom/top bounds are `±3000` and the `N` depth slabs
`[far i, near i]` with `near i = 3000 - i * (6000/N)` and
`far i = 3000 - (i+1) * (6000/N)` partition the cube of side `2 * 3000`
centered at the origin. -/
theorem voxelize_frustum_hardcoded (sceneScale cubeSize : ℚ) (N i : ℕ)
    (hN : 0 < N) (hi : i < N) :
    (voxelizeFrustum (VoxelConeTracer.construct sceneScale cubeSize N) i).left = -3000 ∧
    (voxelizeFrustum (VoxelConeTracer.construct sceneScale cubeSize N) i).right = 3000 ∧
    (voxelizeFrustum (VoxelConeTracer.construct sceneScale cubeSize N) i).bottom = -3000 ∧
    (voxelizeFrustum (VoxelConeTracer.construct sceneScale cubeSize N) i).top = 3000 ∧
    (voxelizeFrustum (VoxelConeTracer.construct sceneScale cubeSize N) i).near =
      3000 - (i : ℚ) * (6000 / (N : ℚ)) ∧
    (voxelizeFrustum (VoxelConeTracer.construct sceneScale cubeSize N) i).far =
      3000 - ((i : ℚ) + 1) * (6000 / (N : ℚ)) := by
  have hN0 : (N : ℚ) ≠ 0 := Nat.cast_ne_zero.mpr (by omega)
  refine ⟨rfl, rfl, rfl, rfl, ?_, ?_⟩
  · show (3000 : ℚ) - ((i : ℚ) / (N : ℚ)) * 3000 * 2 = 3000 - (i : ℚ) * (6000 / (N : ℚ))
    field_simp
    ring
  · show (3000 : ℚ) - (((i : ℚ) + 1) / (N : ℚ)) * 3000 * 2 =
      3000 - ((i : ℚ) + 1) * (6000 / (N : ℚ))
    field_simp
    ring

theorem voxelize_frustum_hardcoded_witness :
    0 < 4 ∧ 2 < 4 ∧
    ((voxelizeFrustum (VoxelConeTracer.construct 7 5 4) 2).left = -3000 ∧
     (voxelizeFrustum (VoxelConeTracer.construct 7 5 4) 2).right = 3000 ∧
     (voxelizeFrustum (VoxelConeTracer.construct 7 5 4) 2).bottom = -3000 ∧
     (voxelizeFrustum (VoxelConeTracer.construct 7 5 4) 2).top = 3000 ∧
     (voxelizeFrustum (VoxelConeTracer.construct 7 5 4) 2).near =
       3000 - ((2 : ℕ) : ℚ) * (6000 / ((4 : ℕ) : ℚ)) ∧
     (voxelizeFrustum (VoxelConeTracer.construct 7 5 4) 2).far =
       3000 - (((2 : ℕ) : ℚ) + 1) * (6000 / ((4 : ℕ) : ℚ))) :=
  ⟨by norm_num, by norm_num, voxelize_frustum_hardcoded 7 5 4 2 (by norm_num) (by norm_num)⟩

/-- C6: for a fixed cone half-angle tangent `tanHalfAngle ≥ 0` and fixed
`voxelWorldSize > 0`, the sampled mip level
`log2(max(voxelWorldSize, 2 * tanHalfAngle * dist) / voxelWorldSize)` is
non-decreasing in the marched distance, for all `dist ≥ 0`. -/
theorem coneMip_monotone {v t d₁ d₂ : ℝ} (hv : 0 < v) (ht : 0 ≤ t)
    (hd₁ : 0 ≤ d₁) (h : d₁ ≤ d₂) : coneMip v t d₁ ≤ coneMip v t d₂ := by
  unfold coneMip
  have harg : 0 < max v (2 * t * d₁) / v :=
    div_pos (lt_of_lt_of_le hv (le_max_left _ _)) hv
  refine Real.logb_le_logb_of_le one_lt_two harg ?_
  refine (div_le_div_iff_of_pos_right hv).mpr ?_
  exact max_le_max (le_refl v) (mul_le_mul_of_nonneg_left h (by linarith))

theorem coneMip_monotone_witness :
    (0 : ℝ) < 1 ∧ (0 : ℝ) ≤ 0 ∧ (0 : ℝ) ≤ 0 ∧ (0 : ℝ) ≤ 1 ∧
    coneMip 1 0 0 ≤ coneMip 1 0 1 :=
  ⟨by norm_num, le_refl 0, le_refl 0, by norm_num,
    coneMip_monotone (by norm_num) (le_refl 0) (le_refl 0) (by norm_num)⟩

/-- C7: for every `tanHalfAngle ≥ 0`, `dist > 0` and `voxelWorldSize > 0`,
the computed mip level is non-negative, because the footprint diameter is
clamped below by `voxelWorldSize` via `max(voxelWorldSize, 2 * tanHalfAngle
* dist)`; a sample below mip 0 is unreachable. -/
theorem coneMip_nonneg {v t d : ℝ} (hv : 0 < v) (ht : 0 ≤ t) (hd : 0 < d) :
    0 ≤ coneMip v t d := by
  unfold coneMip
  refine Real.logb_nonneg one_lt_two ?_
  exact (one_le_div hv).mpr (le_max_left _ _)

theorem coneMip_nonneg_witness :
    (0 : ℝ) < 2 ∧ (0 : ℝ) ≤ 3 ∧ (0 : ℝ) < 5 ∧ 0 ≤ coneMip 2 3 5 :=
  ⟨by norm_num, by norm_num, by norm_num,
    coneMip_nonneg (by norm_num) (by norm_num) (by norm_num)⟩

end GIVoxels
